import Mathlib

/-!
Verification of the account-storage and rotation core of the
`oc-chatgpt-multi-auth` repository.

The persistent store (`selectNewestAccount`, `deduplicateAccounts`,
`loadAccounts`, `saveAccounts`, `clearAccounts`) is embedded from its
TypeScript source.  JavaScript numbers occurring in typed account records
are modelled as `Int` (timestamps are finite integers; `x || 0` is the
identity on integers since `0 || 0 = 0`).  The dynamically-typed data seen
by `loadAccounts` right after `JSON.parse` is modelled by a small raw-value
universe, including non-finite numbers for the `Number.isFinite` check.
File-system effects are modelled by passing the outcome of each primitive
call as an explicit parameter and recording the performed operations.
-/

namespace MultiAuth

/-- Reason recorded for the most recent account switch
(`"rate-limit" | "initial" | "rotation"`). -/
inductive SwitchReason where
  | rateLimit
  | initial
  | rotation
deriving DecidableEq, Repr

/-- Reason an account entered a cooldown window
(`"auth-failure" | "network-error"`). -/
inductive CooldownReason where
  | authFailure
  | networkError
deriving DecidableEq, Repr

/-- Embedding of the TypeScript interface `AccountMetadataV1`.
Optional fields are `Option`; timestamps are integers. -/
structure AccountMetadataV1 where
  accountId : Option String := none
  refreshToken : String
  addedAt : Int
  lastUsed : Int
  lastSwitchReason : Option SwitchReason := none
  rateLimitResetTime : Option Int := none
  coolingDownUntil : Option Int := none
  cooldownReason : Option CooldownReason := none
deriving DecidableEq, Repr

/-- Embedding of `selectNewestAccount`.  The source reads
`current.lastUsed || 0` etc.; `|| 0` is the identity on integer timestamps
(`0 || 0` evaluates to `0`), so the comparisons use the fields directly. -/
def selectNewestAccount (current : Option AccountMetadataV1)
    (candidate : AccountMetadataV1) : AccountMetadataV1 :=
  match current with
  | none => candidate
  | some cur =>
    if cur.lastUsed < candidate.lastUsed then candidate
    else if candidate.lastUsed < cur.lastUsed then cur
    else if cur.addedAt ≤ candidate.addedAt then candidate
    else cur

/-- The JavaScript expression `account.accountId || account.refreshToken`:
an absent or empty `accountId` is falsy and falls through to the token. -/
def accountKey (a : AccountMetadataV1) : String :=
  match a.accountId with
  | some s => if s = "" then a.refreshToken else s
  | none => a.refreshToken

/-- The identity key of a record, or `none` when the key is falsy
(the source skips such records: `if (!key) continue`). -/
def identityKey (a : AccountMetadataV1) : Option String :=
  if accountKey a = "" then none else some (accountKey a)

/-- `Map.get` on the `keyToIndex` map (first matching entry). -/
def mapGet : List (String × Nat) → String → Option Nat
  | [], _ => none
  | p :: rest, k => if p.1 = k then some p.2 else mapGet rest k

/-- `Map.set` on the `keyToIndex` map: replace the entry in place when the
key is present, append otherwise (JavaScript `Map` insertion order). -/
def mapSet : List (String × Nat) → String → Nat → List (String × Nat)
  | [], k, v => [(k, v)]
  | p :: rest, k, v => if p.1 = k then (k, v) :: rest else p :: mapSet rest k v

/-- One iteration of the first loop of `deduplicateAccounts`, at index `i`.
The reference comparison `newest === account` is modelled by structural
equality, which agrees with it here: `selectNewestAccount` returns its
`current` argument only when the candidate loses strictly on `lastUsed` or
`addedAt`, in which case the two records are structurally distinct. -/
def dedupStep (accounts : List AccountMetadataV1) (m : List (String × Nat))
    (i : Nat) (account : AccountMetadataV1) : List (String × Nat) :=
  let key := accountKey account
  if key = "" then m
  else
    match mapGet m key with
    | none => mapSet m key i
    | some existingIndex =>
      let existing := accounts[existingIndex]?
      let newest := selectNewestAccount existing account
      mapSet m key (if newest = account then i else existingIndex)

/-- The first `for` loop of `deduplicateAccounts`: fold `dedupStep` over the
suffix `rest` of `accounts`, whose head sits at index `i`. -/
def dedupScan (accounts : List AccountMetadataV1) :
    Nat → List AccountMetadataV1 → List (String × Nat) → List (String × Nat)
  | _, [], m => m
  | i, a :: rest, m => dedupScan accounts (i + 1) rest (dedupStep accounts m i a)

/-- The `keyToIndex` map after the first loop of `deduplicateAccounts`. -/
def keyToIndexMap (accounts : List AccountMetadataV1) : List (String × Nat) :=
  dedupScan accounts 0 accounts []

/-- The second `for` loop of `deduplicateAccounts`: keep the records whose
index is in `keep` (`indicesToKeep`), preserving input order. -/
def keepScan : Nat → List AccountMetadataV1 → List Nat → List AccountMetadataV1
  | _, [], _ => []
  | i, a :: rest, keep =>
    if keep.contains i then a :: keepScan (i + 1) rest keep
    else keepScan (i + 1) rest keep

/-- Embedding of `deduplicateAccounts`.  `indicesToKeep` is the set of
values of `keyToIndex`; membership is all that is used of it. -/
def deduplicateAccounts (accounts : List AccountMetadataV1) :
    List AccountMetadataV1 :=
  keepScan 0 accounts ((keyToIndexMap accounts).map Prod.snd)

/-! ### Basic lemmas about the `keyToIndex` association list -/

theorem mapGet_mapSet_self (m : List (String × Nat)) (k : String) (v : Nat) :
    mapGet (mapSet m k v) k = some v := by
  induction m with
  | nil => simp [mapGet, mapSet]
  | cons p rest ih =>
    by_cases hp : p.1 = k
    · simp [mapGet, mapSet, hp]
    · simp [mapGet, mapSet, hp, ih]

theorem mapGet_mapSet_ne (m : List (String × Nat)) {k k2 : String} (v : Nat)
    (hne : k2 ≠ k) : mapGet (mapSet m k v) k2 = mapGet m k2 := by
  have hkk : ¬(k = k2) := fun h => hne h.symm
  induction m with
  | nil => simp [mapGet, mapSet, hkk]
  | cons p rest ih =>
    by_cases hp : p.1 = k
    · have hp2 : ¬(p.1 = k2) := by rw [hp]; exact hkk
      simp [mapGet, mapSet, hp, hkk, hp2]
    · by_cases hp2 : p.1 = k2 <;> simp [mapGet, mapSet, hp, hp2, ih, hne]

theorem mapSet_eq_of_get {m : List (String × Nat)} {k : String} {v : Nat}
    (h : mapGet m k = some v) : mapSet m k v = m := by
  induction m with
  | nil => simp [mapGet] at h
  | cons p rest ih =>
    cases p with
    | mk a b =>
      by_cases hp : a = k
      · simp only [mapGet] at h
        rw [if_pos hp] at h
        have hb : b = v := by injection h
        simp only [mapSet]
        rw [if_pos hp]
        rw [← hp, hb]
      · simp only [mapGet] at h
        rw [if_neg hp] at h
        simp only [mapSet]
        rw [if_neg hp, ih h]

theorem mem_of_mapGet {m : List (String × Nat)} {k : String} {i : Nat}
    (h : mapGet m k = some i) : (k, i) ∈ m := by
  induction m with
  | nil => simp [mapGet] at h
  | cons p rest ih =>
    cases p with
    | mk a b =>
      by_cases hp : a = k
      · simp only [mapGet] at h
        rw [if_pos hp] at h
        have hb : b = i := by injection h
        rw [hp, hb]
        exact List.mem_cons_self _ _
      · simp only [mapGet] at h
        rw [if_neg hp] at h
        exact List.mem_cons_of_mem _ (ih h)

theorem mapGet_of_mem {m : List (String × Nat)} {k : String} {i : Nat}
    (hnd : (m.map Prod.fst).Nodup) (hmem : (k, i) ∈ m) : mapGet m k = some i := by
  induction m with
  | nil => simp at hmem
  | cons p rest ih =>
    rw [List.map_cons, List.nodup_cons] at hnd
    rcases List.mem_cons.mp hmem with heq | hrest
    · rw [← heq]
      simp [mapGet]
    · by_cases hp : p.1 = k
      · exact absurd (by rw [hp]; exact List.mem_map.mpr ⟨(k, i), hrest, rfl⟩) hnd.1
      · simp only [mapGet]
        rw [if_neg hp]
        exact ih hnd.2 hrest

theorem mapGet_eq_none_iff (m : List (String × Nat)) (k : String) :
    mapGet m k = none ↔ k ∉ m.map Prod.fst := by
  induction m with
  | nil => simp [mapGet]
  | cons p rest ih =>
    by_cases hp : p.1 = k
    · simp [mapGet, hp]
    · have hp2 : ¬(k = p.1) := fun h => hp h.symm
      simp [mapGet, hp, ih, hp2]

theorem mapSet_keys (m : List (String × Nat)) (k : String) (v : Nat) :
    (mapSet m k v).map Prod.fst =
      if mapGet m k = none then m.map Prod.fst ++ [k] else m.map Prod.fst := by
  induction m with
  | nil => simp [mapSet, mapGet]
  | cons p rest ih =>
    by_cases hp : p.1 = k
    · simp [mapSet, mapGet, hp]
    · simp only [mapSet, mapGet, hp, if_false, List.map_cons, ih]
      by_cases hg : mapGet rest k = none <;> simp [hg]

theorem mapSet_keys_nodup {m : List (String × Nat)} (k : String) (v : Nat)
    (hnd : (m.map Prod.fst).Nodup) : ((mapSet m k v).map Prod.fst).Nodup := by
  rw [mapSet_keys]
  by_cases hg : mapGet m k = none
  · have hk : k ∉ m.map Prod.fst := (mapGet_eq_none_iff m k).mp hg
    simp [hg]
    exact List.Nodup.append hnd (List.nodup_singleton k)
      (by simpa [List.disjoint_singleton] using hk)
  · simpa [hg] using hnd

/-! ### The recency order decided by `selectNewestAccount` -/

/-- Record `a` at input index `i` is "newer" than record `b` at index `j`:
strictly greater `lastUsed`, then strictly greater `addedAt`, then the
later input position. -/
def beats (a b : AccountMetadataV1) (i j : Nat) : Prop :=
  b.lastUsed < a.lastUsed ∨
    (a.lastUsed = b.lastUsed ∧
      (b.addedAt < a.addedAt ∨ (a.addedAt = b.addedAt ∧ j < i)))

instance (a b : AccountMetadataV1) (i j : Nat) : Decidable (beats a b i j) := by
  unfold beats
  infer_instance

theorem beats_total (a b : AccountMetadataV1) {i j : Nat} (hij : i ≠ j) :
    beats a b i j ∨ beats b a j i := by
  unfold beats
  omega

theorem beats_trans {a b c : AccountMetadataV1} {i j l : Nat}
    (h1 : beats a b i j) (h2 : beats b c j l) : beats a c i l := by
  unfold beats at *
  omega

theorem selectNewest_eq_candidate_iff (x a : AccountMetadataV1) :
    selectNewestAccount (some x) a = a ↔
      (x.lastUsed < a.lastUsed ∨
        (a.lastUsed = x.lastUsed ∧ x.addedAt ≤ a.addedAt)) := by
  simp only [selectNewestAccount]
  by_cases h1 : x.lastUsed < a.lastUsed
  · simp [h1]
  · by_cases h2 : a.lastUsed < x.lastUsed
    · rw [if_neg h1, if_pos h2]
      constructor
      · intro h
        rw [h] at h2
        omega
      · intro h
        omega
    · by_cases h3 : x.addedAt ≤ a.addedAt
      · rw [if_neg h1, if_neg h2, if_pos h3]
        simp
        omega
      · rw [if_neg h1, if_neg h2, if_neg h3]
        constructor
        · intro h
          rw [h] at h3
          omega
        · intro h
          omega

/-! ### The loop invariant of `deduplicateAccounts` -/

/-- The identity key of the record at index `i` of `accounts`. -/
def keyAt (accounts : List AccountMetadataV1) (i : Nat) : Option String :=
  match accounts[i]? with
  | some a => identityKey a
  | none => none

/-- The record at index `i` is newer (in the `beats` order) than the one
at index `j`. -/
def beatsAt (accounts : List AccountMetadataV1) (i j : Nat) : Prop :=
  ∃ a b, accounts[i]? = some a ∧ accounts[j]? = some b ∧ beats a b i j

/-- Invariant of the first loop of `deduplicateAccounts` after the first
`t` records have been processed into the map `m`. -/
structure DedupInv (accounts : List AccountMetadataV1) (t : Nat)
    (m : List (String × Nat)) : Prop where
  nodup : (m.map Prod.fst).Nodup
  sound : ∀ k i, mapGet m k = some i → i < t ∧ keyAt accounts i = some k ∧
      ∀ j, j < t → j ≠ i → keyAt accounts j = some k → beatsAt accounts i j
  complete : ∀ j k, j < t → keyAt accounts j = some k → (mapGet m k).isSome

theorem keyAt_lt {accounts : List AccountMetadataV1} {j : Nat} {k : String}
    (h : keyAt accounts j = some k) : j < accounts.length := by
  unfold keyAt at h
  cases hl : accounts[j]? with
  | none => rw [hl] at h; exact absurd h (by simp)
  | some a => exact (List.getElem?_eq_some.mp hl).1

theorem keyAt_get {accounts : List AccountMetadataV1} {j : Nat}
    (hj : j < accounts.length) :
    keyAt accounts j = identityKey (accounts.get ⟨j, hj⟩) := by
  unfold keyAt
  rw [List.getElem?_eq_getElem hj]
  rfl

theorem identityKey_eq_some {a : AccountMetadataV1} (h : ¬accountKey a = "") :
    identityKey a = some (accountKey a) := by
  unfold identityKey
  rw [if_neg h]

theorem keyAt_eq_some_elim {accounts : List AccountMetadataV1} {j : Nat}
    {k : String} (h : keyAt accounts j = some k) :
    ∃ x, accounts[j]? = some x ∧ identityKey x = some k := by
  unfold keyAt at h
  cases hl : accounts[j]? with
  | none => rw [hl] at h; exact absurd h (by simp)
  | some x => rw [hl] at h; exact ⟨x, rfl, h⟩

/-- Processing one more record preserves the loop invariant. -/
theorem dedupStep_inv (accounts : List AccountMetadataV1) (t : Nat)
    (m : List (String × Nat)) (a : AccountMetadataV1)
    (ht : accounts[t]? = some a) (h : DedupInv accounts t m) :
    DedupInv accounts (t + 1) (dedupStep accounts m t a) := by
  by_cases hkey : accountKey a = ""
  · have hstep : dedupStep accounts m t a = m := by simp [dedupStep, hkey]
    rw [hstep]
    have hTnone : keyAt accounts t = none := by
      simp [keyAt, ht, identityKey, hkey]
    refine ⟨h.nodup, ?_, ?_⟩
    · intro k i hmi
      obtain ⟨hit, hki, hb⟩ := h.sound k i hmi
      refine ⟨Nat.lt_succ_of_lt hit, hki, ?_⟩
      intro j hj hji hkj
      rcases (by omega : j < t ∨ j = t) with hj2 | rfl
      · exact hb j hj2 hji hkj
      · rw [hTnone] at hkj
        exact absurd hkj (by simp)
    · intro j k hj hkj
      rcases (by omega : j < t ∨ j = t) with hj2 | rfl
      · exact h.complete j k hj2 hkj
      · rw [hTnone] at hkj
        exact absurd hkj (by simp)
  · have hkT : keyAt accounts t = some (accountKey a) := by
      unfold keyAt
      rw [ht]
      exact identityKey_eq_some hkey
    cases hget : mapGet m (accountKey a) with
    | none =>
      have hstep : dedupStep accounts m t a = mapSet m (accountKey a) t := by
        simp [dedupStep, hkey, hget]
      rw [hstep]
      refine ⟨mapSet_keys_nodup _ _ h.nodup, ?_, ?_⟩
      · intro k i hmi
        by_cases hk : k = accountKey a
        · subst hk
          rw [mapGet_mapSet_self] at hmi
          have hi : t = i := by injection hmi
          subst hi
          refine ⟨Nat.lt_succ_self t, hkT, ?_⟩
          intro j hj hjt hkj
          have hj2 : j < t := by omega
          have hcomp := h.complete j _ hj2 hkj
          rw [hget] at hcomp
          exact absurd hcomp (by simp)
        · rw [mapGet_mapSet_ne _ _ hk] at hmi
          obtain ⟨hit, hki, hb⟩ := h.sound k i hmi
          refine ⟨Nat.lt_succ_of_lt hit, hki, ?_⟩
          intro j hj hji hkj
          rcases (by omega : j < t ∨ j = t) with hj2 | rfl
          · exact hb j hj2 hji hkj
          · rw [hkT] at hkj
            have : accountKey a = k := by injection hkj
            exact absurd this.symm hk
      · intro j k hj hkj
        rcases (by omega : j < t ∨ j = t) with hj2 | rfl
        · by_cases hk : k = accountKey a
          · subst hk
            rw [mapGet_mapSet_self]
            simp
          · rw [mapGet_mapSet_ne _ _ hk]
            exact h.complete j k hj2 hkj
        · rw [hkT] at hkj
          have hk : accountKey a = k := by injection hkj
          rw [← hk, mapGet_mapSet_self]
          simp
    | some e =>
      obtain ⟨het, hke, hbe⟩ := h.sound (accountKey a) e hget
      obtain ⟨x, hxe, hxk⟩ := keyAt_eq_some_elim hke
      by_cases hwin : selectNewestAccount (some x) a = a
      · have hstep : dedupStep accounts m t a = mapSet m (accountKey a) t := by
          simp [dedupStep, hkey, hget, hxe, hwin]
        rw [hstep]
        have hbat : beats a x t e := by
          have hc := (selectNewest_eq_candidate_iff x a).mp hwin
          unfold beats
          rcases hc with hlt | ⟨heq, hle⟩
          · exact Or.inl hlt
          · right
            refine ⟨heq, ?_⟩
            rcases lt_or_eq_of_le hle with h2 | h2
            · exact Or.inl h2
            · exact Or.inr ⟨h2.symm, het⟩
        refine ⟨mapSet_keys_nodup _ _ h.nodup, ?_, ?_⟩
        · intro k i hmi
          by_cases hk : k = accountKey a
          · subst hk
            rw [mapGet_mapSet_self] at hmi
            have hi : t = i := by injection hmi
            subst hi
            refine ⟨Nat.lt_succ_self t, hkT, ?_⟩
            intro j hj hjt hkj
            have hj2 : j < t := by omega
            by_cases hje : j = e
            · subst hje
              exact ⟨a, x, ht, hxe, hbat⟩
            · obtain ⟨x2, b, hx2, hb2, hbeats⟩ := hbe j hj2 hje hkj
              rw [hxe] at hx2
              have hx2e : x = x2 := by injection hx2
              rw [← hx2e] at hbeats
              exact ⟨a, b, ht, hb2, beats_trans hbat hbeats⟩
          · rw [mapGet_mapSet_ne _ _ hk] at hmi
            obtain ⟨hit, hki, hb⟩ := h.sound k i hmi
            refine ⟨Nat.lt_succ_of_lt hit, hki, ?_⟩
            intro j hj hji hkj
            rcases (by omega : j < t ∨ j = t) with hj2 | rfl
            · exact hb j hj2 hji hkj
            · rw [hkT] at hkj
              have : accountKey a = k := by injection hkj
              exact absurd this.symm hk
        · intro j k hj hkj
          rcases (by omega : j < t ∨ j = t) with hj2 | rfl
          · by_cases hk : k = accountKey a
            · subst hk
              rw [mapGet_mapSet_self]
              simp
            · rw [mapGet_mapSet_ne _ _ hk]
              exact h.complete j k hj2 hkj
          · rw [hkT] at hkj
            have hk : accountKey a = k := by injection hkj
            rw [← hk, mapGet_mapSet_self]
            simp
      · have hstep : dedupStep accounts m t a = m := by
          simp [dedupStep, hkey, hget, hxe, hwin, mapSet_eq_of_get hget]
        rw [hstep]
        have hbxa : beats x a e t := by
          have hc := (not_congr (selectNewest_eq_candidate_iff x a)).mp hwin
          push_neg at hc
          obtain ⟨h1, h2⟩ := hc
          unfold beats
          rcases lt_or_eq_of_le h1 with h3 | h3
          · exact Or.inl h3
          · exact Or.inr ⟨h3.symm, Or.inl (h2 h3)⟩
        refine ⟨h.nodup, ?_, ?_⟩
        · intro k i hmi
          obtain ⟨hit, hki, hb⟩ := h.sound k i hmi
          refine ⟨Nat.lt_succ_of_lt hit, hki, ?_⟩
          intro j hj hji hkj
          rcases (by omega : j < t ∨ j = t) with hj2 | rfl
          · exact hb j hj2 hji hkj
          · rw [hkT] at hkj
            have hk : accountKey a = k := by injection hkj
            subst hk
            have hie : e = i := by
              rw [hget] at hmi
              injection hmi
            rw [← hie] at hji ⊢
            exact ⟨x, a, hxe, ht, hbxa⟩
        · intro j k hj hkj
          rcases (by omega : j < t ∨ j = t) with hj2 | rfl
          · exact h.complete j k hj2 hkj
          · rw [hkT] at hkj
            have hk : accountKey a = k := by injection hkj
            rw [← hk, hget]
            simp

theorem dedupScan_inv (accounts : List AccountMetadataV1)
    (rest : List AccountMetadataV1) :
    ∀ (pre : List AccountMetadataV1) (m : List (String × Nat)),
      accounts = pre ++ rest → DedupInv accounts pre.length m →
      DedupInv accounts accounts.length (dedupScan accounts pre.length rest m) := by
  induction rest with
  | nil =>
    intro pre m hsplit hinv
    rw [List.append_nil] at hsplit
    subst hsplit
    simpa [dedupScan] using hinv
  | cons a rest ih =>
    intro pre m hsplit hinv
    have ht : accounts[pre.length]? = some a := by
      rw [hsplit, List.getElem?_append_right (le_refl pre.length)]
      simp
    simp only [dedupScan]
    have hsplit2 : accounts = (pre ++ [a]) ++ rest := by rw [hsplit]; simp
    have hinv2 := dedupStep_inv accounts pre.length m a ht hinv
    have hres := ih (pre ++ [a]) (dedupStep accounts m pre.length a) hsplit2
      (by simpa using hinv2)
    simpa using hres

theorem keyToIndexMap_inv (accounts : List AccountMetadataV1) :
    DedupInv accounts accounts.length (keyToIndexMap accounts) := by
  have base : DedupInv accounts 0 [] := by
    refine ⟨List.nodup_nil, ?_, ?_⟩
    · intro k i hmi
      simp [mapGet] at hmi
    · intro j k hj hkj
      exact absurd hj (Nat.not_lt_zero j)
  have hres := dedupScan_inv accounts accounts [] [] rfl base
  simpa [keyToIndexMap] using hres

/-! ### Lemmas about the second loop (`keepScan`) -/

theorem keepScan_sublist (l : List AccountMetadataV1) :
    ∀ (n : Nat) (keep : List Nat), (keepScan n l keep).Sublist l := by
  induction l with
  | nil => intro n keep; simp [keepScan]
  | cons a rest ih =>
    intro n keep
    simp only [keepScan]
    by_cases hc : keep.contains n
    · rw [if_pos hc]
      exact List.Sublist.cons₂ a (ih (n + 1) keep)
    · rw [if_neg hc]
      exact List.Sublist.cons a (ih (n + 1) keep)

theorem mem_keepScan (l : List AccountMetadataV1) :
    ∀ (n : Nat) (keep : List Nat) (x : AccountMetadataV1),
      x ∈ keepScan n l keep ↔ ∃ j, l[j]? = some x ∧ (n + j) ∈ keep := by
  induction l with
  | nil => intro n keep x; simp [keepScan]
  | cons a rest ih =>
    intro n keep x
    simp only [keepScan]
    by_cases hc : keep.contains n
    · have hcm : n ∈ keep := by simpa using hc
      rw [if_pos hc]
      constructor
      · intro hx
        rcases List.mem_cons.mp hx with rfl | hx2
        · exact ⟨0, by simp, by simpa using hcm⟩
        · obtain ⟨j, hg, hk⟩ := (ih (n + 1) keep x).mp hx2
          exact ⟨j + 1, by simpa using hg, by
            have : n + (j + 1) = n + 1 + j := by omega
            rw [this]; exact hk⟩
      · rintro ⟨j, hg, hk⟩
        cases j with
        | zero =>
          simp at hg
          rw [hg]
          exact List.mem_cons_self _ _
        | succ j2 =>
          refine List.mem_cons_of_mem _ ((ih (n + 1) keep x).mpr ⟨j2, by simpa using hg, ?_⟩)
          have : n + 1 + j2 = n + (j2 + 1) := by omega
          rw [this]; exact hk
    · have hcm : n ∉ keep := by simpa using hc
      rw [if_neg hc]
      rw [ih (n + 1) keep x]
      constructor
      · rintro ⟨j, hg, hk⟩
        exact ⟨j + 1, by simpa using hg, by
          have : n + (j + 1) = n + 1 + j := by omega
          rw [this]; exact hk⟩
      · rintro ⟨j, hg, hk⟩
        cases j with
        | zero =>
          rw [Nat.add_zero] at hk
          exact absurd hk hcm
        | succ j2 =>
          refine ⟨j2, by simpa using hg, ?_⟩
          have : n + 1 + j2 = n + (j2 + 1) := by omega
          rw [this]; exact hk

theorem keepScan_filter_nil (p : AccountMetadataV1 → Bool)
    (l : List AccountMetadataV1) :
    ∀ (n : Nat) (keep : List Nat),
      (∀ j x, l[j]? = some x → (n + j) ∈ keep → p x = false) →
      (keepScan n l keep).filter p = [] := by
  induction l with
  | nil => intro n keep _; simp [keepScan]
  | cons a rest ih =>
    intro n keep hall
    have hshift : ∀ j x, rest[j]? = some x → (n + 1 + j) ∈ keep → p x = false := by
      intro j x hg hk
      refine hall (j + 1) x (by simpa using hg) ?_
      have : n + (j + 1) = n + 1 + j := by omega
      rw [this]; exact hk
    simp only [keepScan]
    by_cases hc : keep.contains n
    · have hcm : n ∈ keep := by simpa using hc
      rw [if_pos hc, List.filter_cons]
      rw [hall 0 a (by simp) (by simpa using hcm)]
      simp only [Bool.false_eq_true, if_false]
      exact ih (n + 1) keep hshift
    · rw [if_neg hc]
      exact ih (n + 1) keep hshift

theorem keepScan_filter_singleton (p : AccountMetadataV1 → Bool)
    (l : List AccountMetadataV1) :
    ∀ (n : Nat) (keep : List Nat) (j : Nat) (x : AccountMetadataV1),
      l[j]? = some x → (n + j) ∈ keep → p x = true →
      (∀ j2 x2, l[j2]? = some x2 → j2 ≠ j → (n + j2) ∈ keep → p x2 = false) →
      (keepScan n l keep).filter p = [x] := by
  induction l with
  | nil =>
    intro n keep j x hg
    simp at hg
  | cons a rest ih =>
    intro n keep j x hg hk hp huniq
    simp only [keepScan]
    cases j with
    | zero =>
      simp at hg
      subst hg
      rw [Nat.add_zero] at hk
      have hc : keep.contains n := by simpa using hk
      rw [if_pos hc, List.filter_cons, hp]
      simp only [if_true]
      have hnil : (keepScan (n + 1) rest keep).filter p = [] := by
        refine keepScan_filter_nil p rest (n + 1) keep ?_
        intro j2 x2 hg2 hk2
        refine huniq (j2 + 1) x2 (by simpa using hg2) (by omega) ?_
        have : n + (j2 + 1) = n + 1 + j2 := by omega
        rw [this]; exact hk2
      rw [hnil]
    | succ j2 =>
      have hrec : (keepScan (n + 1) rest keep).filter p = [x] := by
        refine ih (n + 1) keep j2 x (by simpa using hg) ?_ hp ?_
        · have : n + 1 + j2 = n + (j2 + 1) := by omega
          rw [this]; exact hk
        · intro j3 x3 hg3 hj3 hk3
          refine huniq (j3 + 1) x3 (by simpa using hg3) (by omega) ?_
          have : n + (j3 + 1) = n + 1 + j3 := by omega
          rw [this]; exact hk3
      by_cases hc : keep.contains n
      · have hcm : n ∈ keep := by simpa using hc
        rw [if_pos hc, List.filter_cons]
        rw [huniq 0 a (by simp) (by omega) (by simpa using hcm)]
        simp only [Bool.false_eq_true, if_false]
        exact hrec
      · rw [if_neg hc]
        exact hrec

theorem keepScan_pairwise (R : AccountMetadataV1 → AccountMetadataV1 → Prop)
    (l : List AccountMetadataV1) :
    ∀ (n : Nat) (keep : List Nat),
      (∀ j1 j2 x1 x2, l[j1]? = some x1 → l[j2]? = some x2 → j1 < j2 →
        (n + j1) ∈ keep → (n + j2) ∈ keep → R x1 x2) →
      (keepScan n l keep).Pairwise R := by
  induction l with
  | nil => intro n keep _; simp [keepScan]
  | cons a rest ih =>
    intro n keep hall
    have hshift : ∀ j1 j2 x1 x2, rest[j1]? = some x1 → rest[j2]? = some x2 →
        j1 < j2 → (n + 1 + j1) ∈ keep → (n + 1 + j2) ∈ keep → R x1 x2 := by
      intro j1 j2 x1 x2 hg1 hg2 hlt hk1 hk2
      refine hall (j1 + 1) (j2 + 1) x1 x2 (by simpa using hg1) (by simpa using hg2)
        (by omega) ?_ ?_
      · have : n + (j1 + 1) = n + 1 + j1 := by omega
        rw [this]; exact hk1
      · have : n + (j2 + 1) = n + 1 + j2 := by omega
        rw [this]; exact hk2
    simp only [keepScan]
    by_cases hc : keep.contains n
    · have hcm : n ∈ keep := by simpa using hc
      rw [if_pos hc]
      refine List.Pairwise.cons ?_ (ih (n + 1) keep hshift)
      intro b hb
      obtain ⟨j, hg, hk⟩ := (mem_keepScan rest (n + 1) keep b).mp hb
      refine hall 0 (j + 1) a b (by simp) (by simpa using hg) (by omega)
        (by simpa using hcm) ?_
      have : n + (j + 1) = n + 1 + j := by omega
      rw [this]; exact hk
    · rw [if_neg hc]
      exact ih (n + 1) keep hshift

theorem keepScan_of_all_kept (l : List AccountMetadataV1) :
    ∀ (n : Nat) (keep : List Nat),
      (∀ j x, l[j]? = some x → (n + j) ∈ keep) → keepScan n l keep = l := by
  induction l with
  | nil => intro n keep _; simp [keepScan]
  | cons a rest ih =>
    intro n keep hall
    have hcm : n ∈ keep := by
      have := hall 0 a (by simp)
      simpa using this
    have hc : keep.contains n := by simpa using hcm
    simp only [keepScan]
    rw [if_pos hc]
    rw [ih (n + 1) keep ?_]
    intro j x hg
    have h2 := hall (j + 1) x (by simpa using hg)
    have : n + (j + 1) = n + 1 + j := by omega
    rw [← this]; exact h2

theorem get_of_getElem? {l : List AccountMetadataV1} {i : Nat}
    {x : AccountMetadataV1} (hi : i < l.length) (h : l[i]? = some x) :
    l.get ⟨i, hi⟩ = x := by
  rw [List.get_eq_getElem]
  rw [List.getElem?_eq_getElem hi] at h
  injection h

/-- A record fetched through `identityKey = some k` has a non-empty key. -/
theorem accountKey_ne_of_identityKey {x : AccountMetadataV1} {k : String}
    (h : identityKey x = some k) : ¬accountKey x = "" := by
  intro hemp
  unfold identityKey at h
  rw [if_pos hemp] at h
  exact absurd h (by simp)

theorem accountKey_eq_of_identityKey {x : AccountMetadataV1} {k : String}
    (h : identityKey x = some k) : accountKey x = k := by
  have hne := accountKey_ne_of_identityKey h
  unfold identityKey at h
  rw [if_neg hne] at h
  injection h

/-- Deduplicating a list whose records all carry pairwise-distinct,
non-empty identity keys returns the list unchanged. -/
theorem dedup_of_keyed_nodup (l : List AccountMetadataV1)
    (hkeys : ∀ x ∈ l, ¬accountKey x = "")
    (hnd : l.Pairwise (fun x y => accountKey x ≠ accountKey y)) :
    deduplicateAccounts l = l := by
  have hInv := keyToIndexMap_inv l
  show keepScan 0 l ((keyToIndexMap l).map Prod.snd) = l
  apply keepScan_of_all_kept
  intro j x hg
  obtain ⟨hjlt, hje⟩ := List.getElem?_eq_some.mp hg
  have hxmem : x ∈ l := by rw [← hje]; exact l.getElem_mem hjlt
  have hxkey : ¬accountKey x = "" := hkeys x hxmem
  have hkj : keyAt l j = some (accountKey x) := by
    unfold keyAt
    rw [hg]
    exact identityKey_eq_some hxkey
  have hsome := hInv.complete j _ hjlt hkj
  cases hgi : mapGet (keyToIndexMap l) (accountKey x) with
  | none => rw [hgi] at hsome; exact absurd hsome (by simp)
  | some i =>
    obtain ⟨hit, hki, _⟩ := hInv.sound _ i hgi
    obtain ⟨y, hy, hyk⟩ := keyAt_eq_some_elim hki
    obtain ⟨hilt, hie⟩ := List.getElem?_eq_some.mp hy
    have hkyx : accountKey y = accountKey x := accountKey_eq_of_identityKey hyk
    have hall := List.pairwise_iff_getElem.mp hnd
    have hij : i = j := by
      by_contra hne
      rcases Nat.lt_or_ge i j with hlt | hge
      · exact hall i j hilt hjlt hlt (by rw [hie, hje, hkyx])
      · have hlt2 : j < i := by omega
        exact hall j i hjlt hilt hlt2 (by rw [hie, hje, hkyx])
    subst hij
    have hmem : (accountKey x, i) ∈ keyToIndexMap l := mem_of_mapGet hgi
    rw [Nat.zero_add]
    exact List.mem_map.mpr ⟨(accountKey x, i), hmem, rfl⟩

/-- C2: the output of `deduplicateAccounts` is a stable subsequence of its
input — every output record is an input record, unmodified, and surviving
records keep their original relative order (never re-sorted by recency). -/
theorem dedup_stable_sublist (accounts : List AccountMetadataV1) :
    (deduplicateAccounts accounts).Sublist accounts := by
  show (keepScan 0 accounts ((keyToIndexMap accounts).map Prod.snd)).Sublist accounts
  exact keepScan_sublist accounts 0 _

/-- C1: whenever two or more records of the input share the identity key
`k`, `deduplicateAccounts` keeps exactly one record with that key, namely
the one beating every other sharer on strictly greater `lastUsed`, then
strictly greater `addedAt`, then later input position (ties toward the
later record). -/
theorem dedup_keeps_newest_per_key (accounts : List AccountMetadataV1)
    (k : String)
    (hdup : 2 ≤ (accounts.filter (fun a => decide (identityKey a = some k))).length) :
    ∃ i, ∃ hi : i < accounts.length,
      identityKey (accounts.get ⟨i, hi⟩) = some k ∧
      (deduplicateAccounts accounts).filter
          (fun a => decide (identityKey a = some k)) = [accounts.get ⟨i, hi⟩] ∧
      ∀ j (hj : j < accounts.length), j ≠ i →
        identityKey (accounts.get ⟨j, hj⟩) = some k →
        beats (accounts.get ⟨i, hi⟩) (accounts.get ⟨j, hj⟩) i j := by
  have hInv := keyToIndexMap_inv accounts
  have hpos : 0 < (accounts.filter (fun a => decide (identityKey a = some k))).length := by
    omega
  obtain ⟨a0, ha0⟩ := List.exists_mem_of_length_pos hpos
  have ha0mem : a0 ∈ accounts := (List.mem_filter.mp ha0).1
  have ha0key : identityKey a0 = some k :=
    of_decide_eq_true (List.mem_filter.mp ha0).2
  obtain ⟨⟨j0, hj0⟩, hg0⟩ := List.mem_iff_get.mp ha0mem
  have hkj0 : keyAt accounts j0 = some k := by
    rw [keyAt_get hj0, hg0]
    exact ha0key
  have hsome := hInv.complete j0 k hj0 hkj0
  cases hgi : mapGet (keyToIndexMap accounts) k with
  | none => rw [hgi] at hsome; exact absurd hsome (by simp)
  | some i =>
    obtain ⟨hit, hki, hb⟩ := hInv.sound k i hgi
    have hilt : i < accounts.length := hit
    have hkey_i : identityKey (accounts.get ⟨i, hilt⟩) = some k := by
      rw [← keyAt_get hilt]
      exact hki
    refine ⟨i, hilt, hkey_i, ?_, ?_⟩
    · show (keepScan 0 accounts ((keyToIndexMap accounts).map Prod.snd)).filter
        (fun a => decide (identityKey a = some k)) = [accounts.get ⟨i, hilt⟩]
      refine keepScan_filter_singleton _ accounts 0 _ i (accounts.get ⟨i, hilt⟩)
        ?_ ?_ ?_ ?_
      · rw [List.getElem?_eq_getElem hilt, List.get_eq_getElem]
      · rw [Nat.zero_add]
        exact List.mem_map.mpr ⟨(k, i), mem_of_mapGet hgi, rfl⟩
      · exact decide_eq_true hkey_i
      · intro j2 x2 hg2 hj2i hk2
        cases hdec : decide (identityKey x2 = some k) with
        | false => rfl
        | true =>
          exfalso
          have hx2k : identityKey x2 = some k := of_decide_eq_true hdec
          have hj2mem : j2 ∈ (keyToIndexMap accounts).map Prod.snd := by
            simpa using hk2
          obtain ⟨⟨k2, j2b⟩, hpmem, hpe⟩ := List.mem_map.mp hj2mem
          have hj2b : j2b = j2 := hpe
          rw [hj2b] at hpmem
          have hget2 : mapGet (keyToIndexMap accounts) k2 = some j2 :=
            mapGet_of_mem hInv.nodup hpmem
          obtain ⟨_, hkj2b, _⟩ := hInv.sound k2 j2 hget2
          have hkj2 : keyAt accounts j2 = some k := by
            unfold keyAt
            rw [hg2]
            exact hx2k
          rw [hkj2] at hkj2b
          have hk2k : k = k2 := by injection hkj2b
          rw [← hk2k, hgi] at hget2
          have hieq : i = j2 := by injection hget2
          exact hj2i hieq.symm
    · intro j hj hji hkeyj
      have hkj : keyAt accounts j = some k := by
        rw [keyAt_get hj]
        exact hkeyj
      obtain ⟨xi, b, hxi, hbj, hbeats⟩ := hb j hj hji hkj
      rw [get_of_getElem? hilt hxi, get_of_getElem? hj hbj]
      exact hbeats

/-- Concrete two-record input sharing the identity key `"acct"`. -/
def c1List : List AccountMetadataV1 :=
  [⟨some ("acct"), "tok-a", 1, 5, none, none, none, none⟩,
   ⟨some ("acct"), "tok-b", 2, 7, none, none, none, none⟩]

/-- C1 witness: the hypothesis holds on `c1List` and the theorem applies. -/
theorem dedup_keeps_newest_per_key_witness :
    2 ≤ (c1List.filter (fun a => decide (identityKey a = some ("acct")))).length ∧
    (∃ i, ∃ hi : i < c1List.length,
      identityKey (c1List.get ⟨i, hi⟩) = some ("acct") ∧
      (deduplicateAccounts c1List).filter
          (fun a => decide (identityKey a = some ("acct"))) = [c1List.get ⟨i, hi⟩] ∧
      ∀ j (hj : j < c1List.length), j ≠ i →
        identityKey (c1List.get ⟨j, hj⟩) = some ("acct") →
        beats (c1List.get ⟨i, hi⟩) (c1List.get ⟨j, hj⟩) i j) :=
  ⟨by decide, dedup_keeps_newest_per_key c1List ("acct") (by decide)⟩

/-- C10: `deduplicateAccounts` is idempotent — its output is a fixed
point, since every surviving record carries a unique non-empty key. -/
theorem dedup_idempotent (accounts : List AccountMetadataV1) :
    deduplicateAccounts (deduplicateAccounts accounts)
      = deduplicateAccounts accounts := by
  have hInv := keyToIndexMap_inv accounts
  have hkeyFromKeep : ∀ j x, accounts[j]? = some x →
      j ∈ (keyToIndexMap accounts).map Prod.snd → ∃ k2, identityKey x = some k2 ∧
        mapGet (keyToIndexMap accounts) k2 = some j := by
    intro j x hg hj
    obtain ⟨⟨k2, jb⟩, hpmem, hpe⟩ := List.mem_map.mp hj
    have hjb : jb = j := hpe
    rw [hjb] at hpmem
    have hget2 : mapGet (keyToIndexMap accounts) k2 = some j :=
      mapGet_of_mem hInv.nodup hpmem
    obtain ⟨_, hkj, _⟩ := hInv.sound k2 j hget2
    obtain ⟨x2, hx2, hx2k⟩ := keyAt_eq_some_elim hkj
    rw [hg] at hx2
    have hxx : x = x2 := by injection hx2
    exact ⟨k2, by rw [hxx]; exact hx2k, hget2⟩
  have hkeys : ∀ x ∈ deduplicateAccounts accounts, ¬accountKey x = "" := by
    intro x hx
    have hx2 : x ∈ keepScan 0 accounts ((keyToIndexMap accounts).map Prod.snd) := hx
    obtain ⟨j, hg, hk⟩ := (mem_keepScan accounts 0 _ x).mp hx2
    obtain ⟨k2, hik, _⟩ := hkeyFromKeep j x hg (by simpa using hk)
    exact accountKey_ne_of_identityKey hik
  have hpair : (deduplicateAccounts accounts).Pairwise
      (fun x y => accountKey x ≠ accountKey y) := by
    show (keepScan 0 accounts ((keyToIndexMap accounts).map Prod.snd)).Pairwise _
    apply keepScan_pairwise
    intro j1 j2 x1 x2 hg1 hg2 hlt hk1 hk2
    obtain ⟨k1, hik1, hm1⟩ := hkeyFromKeep j1 x1 hg1 (by simpa using hk1)
    obtain ⟨k2, hik2, hm2⟩ := hkeyFromKeep j2 x2 hg2 (by simpa using hk2)
    intro heq
    have he1 : accountKey x1 = k1 := accountKey_eq_of_identityKey hik1
    have he2 : accountKey x2 = k2 := accountKey_eq_of_identityKey hik2
    have hkk : k1 = k2 := by rw [← he1, ← he2, heq]
    rw [hkk, hm2] at hm1
    have : j2 = j1 := by injection hm1
    omega
  exact dedup_of_keyed_nodup _ hkeys hpair

/-! ### Raw parsed data and the `loadAccounts` pipeline -/

/-- A JavaScript number as classified by `Number.isFinite`.  `JSON.parse`
only produces finite numbers, but the checks in `loadAccounts` also guard
against `NaN` and infinities, so the model keeps them representable. -/
inductive JsNumber where
  | finite (n : Int)
  | nan
  | posInf
  | negInf
deriving DecidableEq, Repr

/-- A shallowly-typed JavaScript value, for the dynamically-checked fields
of the parsed document (`version`, `activeIndex`, `refreshToken`). -/
inductive RawValue where
  | absent
  | nullV
  | boolV (b : Bool)
  | numV (n : JsNumber)
  | strV (s : String)
  | objV
  | arrV
deriving DecidableEq, Repr

/-- An element of the stored `accounts` array before validation: its
`refreshToken` may have any type (the filter checks `typeof`); the
remaining fields are carried as the interface declares them, since no
runtime check inspects them. -/
structure RawAccount where
  accountId : Option String := none
  refreshToken : RawValue
  addedAt : Int
  lastUsed : Int
  lastSwitchReason : Option SwitchReason := none
  rateLimitResetTime : Option Int := none
  coolingDownUntil : Option Int := none
  cooldownReason : Option CooldownReason := none
deriving DecidableEq, Repr

/-- The record-level filter of `loadAccounts`
(`!!account && typeof account.refreshToken === "string"`) together with
the cast to `AccountMetadataV1`.  A `none` element models a nullish array
slot; a non-string `refreshToken` fails the `typeof` check. -/
def coerceAccount : Option RawAccount → Option AccountMetadataV1
  | none => none
  | some a =>
    match a.refreshToken with
    | RawValue.strV s =>
      some { accountId := a.accountId, refreshToken := s,
             addedAt := a.addedAt, lastUsed := a.lastUsed,
             lastSwitchReason := a.lastSwitchReason,
             rateLimitResetTime := a.rateLimitResetTime,
             coolingDownUntil := a.coolingDownUntil,
             cooldownReason := a.cooldownReason }
    | _ => none

/-- The parsed on-disk document.  `accountsField = none` models
`Array.isArray(data.accounts)` being false (including a missing field);
`some l` is an array whose slots may be nullish. -/
structure RawDoc where
  version : RawValue
  accountsField : Option (List (Option RawAccount))
  activeIndexField : RawValue
deriving DecidableEq, Repr

/-- Embedding of the interface `AccountStorageV1` (the `version : 1`
literal is carried implicitly: every constructed document has it). -/
structure AccountStorageV1 where
  accounts : List AccountMetadataV1
  activeIndex : Int
deriving DecidableEq, Repr

/-- Log calls made by the storage module, as observable events. -/
inductive LogEvent where
  | warnInvalidFormat
  | warnUnknownVersion (version : RawValue)
  | errorLoadFailed
  | errorClearFailed
deriving DecidableEq, Repr

/-- A thrown JavaScript error, identified by the `code` property the catch
blocks read (`none` models `undefined`, as on parse or type errors). -/
structure JsError where
  code : Option String
deriving DecidableEq, Repr

/-- The error thrown by `fs` when the file is absent. -/
def enoentError : JsError := ⟨some ("ENOENT")⟩

/-- Outcome of `fs.readFile` plus `JSON.parse` at the top of
`loadAccounts`: the read may throw (with some error code), the content
may fail to parse (`SyntaxError`, no code), the content may parse to
`null` (the later `data.accounts` access then throws a `TypeError`), or
parsing yields a document. -/
inductive ReadOutcome where
  | readErr (e : JsError)
  | parseError
  | parsedNull
  | parsed (d : RawDoc)
deriving DecidableEq, Repr

/-- The validation pipeline of `loadAccounts` applied to a parsed
document, in source order: array check, strict `version !== 1` check,
record filter, deduplication, `activeIndex` coercion and clamping. -/
def processData (d : RawDoc) : Option AccountStorageV1 × List LogEvent :=
  match d.accountsField with
  | none => (none, [LogEvent.warnInvalidFormat])
  | some rawAccounts =>
    if d.version ≠ RawValue.numV (JsNumber.finite 1) then
      (none, [LogEvent.warnUnknownVersion d.version])
    else
      let validAccounts := rawAccounts.filterMap coerceAccount
      let deduplicatedAccounts := deduplicateAccounts validAccounts
      let activeIndexRaw : Int :=
        match d.activeIndexField with
        | RawValue.numV (JsNumber.finite n) => n
        | _ => 0
      let activeIndex : Int :=
        if 0 < deduplicatedAccounts.length then
          max 0 (min activeIndexRaw ((deduplicatedAccounts.length : Int) - 1))
        else 0
      (some ⟨deduplicatedAccounts, activeIndex⟩, [])

/-- The body of the `try` block of `loadAccounts`. -/
def loadBody : ReadOutcome → Except JsError (Option AccountStorageV1 × List LogEvent)
  | ReadOutcome.readErr e => Except.error e
  | ReadOutcome.parseError => Except.error ⟨none⟩
  | ReadOutcome.parsedNull => Except.error ⟨none⟩
  | ReadOutcome.parsed d => Except.ok (processData d)

/-- Embedding of `loadAccounts`: the `try` block is `loadBody`; the
`catch` returns `null` silently on `ENOENT` and logs then returns `null`
on anything else.  The result stays `Except`-valued so that "never throws
to the caller" is a provable property rather than a typing artifact. -/
def loadAccounts (r : ReadOutcome) :
    Except JsError (Option AccountStorageV1 × List LogEvent) :=
  match loadBody r with
  | Except.ok v => Except.ok v
  | Except.error e =>
    if e.code = some ("ENOENT") then Except.ok (none, [])
    else Except.ok (none, [LogEvent.errorLoadFailed])

/-- Every record surviving `deduplicateAccounts` carries an identity key
(records with a falsy key are never entered into `keyToIndex`). -/
theorem dedup_mem_identityKey (accounts : List AccountMetadataV1) :
    ∀ x ∈ deduplicateAccounts accounts, ∃ k2, identityKey x = some k2 := by
  intro x hx
  have hInv := keyToIndexMap_inv accounts
  have hx2 : x ∈ keepScan 0 accounts ((keyToIndexMap accounts).map Prod.snd) := hx
  obtain ⟨j, hg, hk⟩ := (mem_keepScan accounts 0 _ x).mp hx2
  have hj : j ∈ (keyToIndexMap accounts).map Prod.snd := by simpa using hk
  obtain ⟨⟨k2, jb⟩, hpmem, hpe⟩ := List.mem_map.mp hj
  have hjb : jb = j := hpe
  rw [hjb] at hpmem
  have hget2 : mapGet (keyToIndexMap accounts) k2 = some j :=
    mapGet_of_mem hInv.nodup hpmem
  obtain ⟨_, hkj, _⟩ := hInv.sound k2 j hget2
  obtain ⟨x2, hx2g, hx2k⟩ := keyAt_eq_some_elim hkj
  rw [hg] at hx2g
  have hxx : x = x2 := by injection hx2g
  exact ⟨k2, by rw [hxx]; exact hx2k⟩

/-- C6: `loadAccounts` never throws to its caller: every outcome of the
underlying read produces a normal return; a missing file (ENOENT) yields
"no prior state" silently; any other I/O or parse failure logs the error
and still returns "no prior state" instead of propagating. -/
theorem loadAccounts_never_throws :
    (∀ r, ∃ v, loadAccounts r = Except.ok v) ∧
    loadAccounts (ReadOutcome.readErr enoentError) = Except.ok (none, []) ∧
    (∀ e, loadAccounts (ReadOutcome.readErr e) =
      Except.ok (if e.code = some ("ENOENT")
        then ((none : Option AccountStorageV1), ([] : List LogEvent))
        else (none, [LogEvent.errorLoadFailed]))) ∧
    loadAccounts ReadOutcome.parseError =
      Except.ok (none, [LogEvent.errorLoadFailed]) := by
  refine ⟨?_, rfl, ?_, rfl⟩
  · intro r
    cases r with
    | readErr e =>
      refine ⟨if e.code = some ("ENOENT") then (none, [])
              else (none, [LogEvent.errorLoadFailed]), ?_⟩
      by_cases hc : e.code = some ("ENOENT") <;>
        simp [loadAccounts, loadBody, hc]
    | parseError => exact ⟨_, rfl⟩
    | parsedNull => exact ⟨_, rfl⟩
    | parsed d => exact ⟨_, rfl⟩
  · intro e
    by_cases hc : e.code = some ("ENOENT") <;>
      simp [loadAccounts, loadBody, hc]

/-- C7: a parsed document whose `accounts` field is a list but whose
`version` is not exactly the number `1` makes `loadAccounts` return "no
prior state" normally, after a warning naming the found version. -/
theorem load_rejects_unknown_version (d : RawDoc)
    (l : List (Option RawAccount)) (hacc : d.accountsField = some l)
    (hver : d.version ≠ RawValue.numV (JsNumber.finite 1)) :
    loadAccounts (ReadOutcome.parsed d) =
      Except.ok (none, [LogEvent.warnUnknownVersion d.version]) := by
  simp [loadAccounts, loadBody, processData, hacc, hver]

/-- A concrete stored document carrying `version: 2`. -/
def version2Doc : RawDoc :=
  ⟨RawValue.numV (JsNumber.finite 2), some [], RawValue.numV (JsNumber.finite 0)⟩

/-- C7 witness: loading a `version: 2` document returns "no prior state"
with the version named in the warning. -/
theorem load_rejects_unknown_version_witness :
    version2Doc.accountsField = some [] ∧
    version2Doc.version ≠ RawValue.numV (JsNumber.finite 1) ∧
    loadAccounts (ReadOutcome.parsed version2Doc) =
      Except.ok (none, [LogEvent.warnUnknownVersion version2Doc.version]) :=
  ⟨rfl, by decide, load_rejects_unknown_version version2Doc [] rfl (by decide)⟩

/-- C4: for every document `loadAccounts` accepts, the returned
`activeIndex` lies in `[0, len - 1]` when the deduplicated list is
non-empty and is `0` when it is empty; a stored `activeIndex` that is not
a finite number is treated as `0` before clamping. -/
theorem load_clamps_activeIndex (d : RawDoc) (st : AccountStorageV1)
    (logs : List LogEvent)
    (h : loadAccounts (ReadOutcome.parsed d) = Except.ok (some st, logs)) :
    (st.accounts ≠ [] →
      0 ≤ st.activeIndex ∧ st.activeIndex ≤ (st.accounts.length : Int) - 1) ∧
    (st.accounts = [] → st.activeIndex = 0) ∧
    ((∀ n : Int, d.activeIndexField ≠ RawValue.numV (JsNumber.finite n)) →
      st.activeIndex = 0) := by
  cases hacc : d.accountsField with
  | none => simp [loadAccounts, loadBody, processData, hacc] at h
  | some rawAccounts =>
    by_cases hver : d.version = RawValue.numV (JsNumber.finite 1)
    · simp [loadAccounts, loadBody, processData, hacc, hver] at h
      obtain ⟨hst, hlogs⟩ := h
      subst hst
      refine ⟨?_, ?_, ?_⟩
      · intro hne
        have hlen : 0 < (deduplicateAccounts
            (rawAccounts.filterMap coerceAccount)).length :=
          List.length_pos.mpr hne
        simp only [hlen, if_pos]
        omega
      · intro hemp
        have hemp2 : deduplicateAccounts
            (rawAccounts.filterMap coerceAccount) = [] := hemp
        simp [hemp2]
      · intro hnofin
        have hres : (match d.activeIndexField with
            | RawValue.numV (JsNumber.finite n) => n
            | _ => (0 : Int)) = 0 := by
          cases hdf : d.activeIndexField with
          | numV jn =>
            cases jn with
            | finite n => exact absurd hdf (hnofin n)
            | nan => rfl
            | posInf => rfl
            | negInf => rfl
          | absent => rfl
          | nullV => rfl
          | boolV b => rfl
          | strV s => rfl
          | objV => rfl
          | arrV => rfl
        simp only [hres]
        by_cases hlen : 0 < (deduplicateAccounts
            (rawAccounts.filterMap coerceAccount)).length
        · simp only [hlen, if_pos]
          omega
        · simp [hlen]
    · simp [loadAccounts, loadBody, processData, hacc, hver] at h

/-- A stored document whose two records share the key `"dup"` and whose
stored `activeIndex` (`5`) is out of range after deduplication. -/
def c4Doc : RawDoc :=
  ⟨RawValue.numV (JsNumber.finite 1),
   some [some ⟨some ("dup"), RawValue.strV ("t1"), 1, 1, none, none, none, none⟩,
         some ⟨some ("dup"), RawValue.strV ("t2"), 2, 2, none, none, none, none⟩],
   RawValue.numV (JsNumber.finite 5)⟩

/-- The document `loadAccounts` returns for `c4Doc`. -/
def c4St : AccountStorageV1 :=
  ⟨[⟨some ("dup"), "t2", 2, 2, none, none, none, none⟩], 0⟩

/-- C4 witness: on `c4Doc`, deduplication shrinks the list from 2 to 1
and the stored index 5 is clamped to 0. -/
theorem load_clamps_activeIndex_witness :
    loadAccounts (ReadOutcome.parsed c4Doc) = Except.ok (some c4St, []) ∧
    ((c4St.accounts ≠ [] →
      0 ≤ c4St.activeIndex ∧
        c4St.activeIndex ≤ (c4St.accounts.length : Int) - 1) ∧
     (c4St.accounts = [] → c4St.activeIndex = 0) ∧
     ((∀ n : Int, c4Doc.activeIndexField ≠ RawValue.numV (JsNumber.finite n)) →
      c4St.activeIndex = 0)) :=
  ⟨by rfl, load_clamps_activeIndex c4Doc c4St [] (by rfl)⟩

/-- Concrete record with a non-empty `accountId` and an empty-string
`refreshToken`, before and after validation. -/
def c3RawAccount : RawAccount :=
  ⟨some ("acct-1"), RawValue.strV (""), 0, 0, none, none, none, none⟩

/-- The same record as `loadAccounts` stores it. -/
def c3BadAccount : AccountMetadataV1 :=
  ⟨some ("acct-1"), "", 0, 0, none, none, none, none⟩

/-- A valid `version: 1` document whose single record has an empty-string
`refreshToken` but a non-empty `accountId`. -/
def c3Doc : RawDoc :=
  ⟨RawValue.numV (JsNumber.finite 1), some [some c3RawAccount],
   RawValue.numV (JsNumber.finite 0)⟩

/-- C3 counterexample: `loadAccounts` keeps a record whose `refreshToken`
is the empty string — the filter only checks `typeof === "string"` and
the key `accountId` rescues the record from the dedup key check. -/
theorem load_keeps_empty_refreshToken :
    loadAccounts (ReadOutcome.parsed c3Doc) =
      Except.ok (some ⟨[c3BadAccount], 0⟩, []) ∧
    c3BadAccount.refreshToken = "" ∧
    c3BadAccount.accountId = some ("acct-1") := by
  refine ⟨?_, rfl, rfl⟩
  rfl

/-- C3 amended: every record kept by `loadAccounts` passed the
string-typed `refreshToken` filter (the output is a subsequence of the
coerced records) and carries a usable identity key — a non-empty
`accountId` or a non-empty `refreshToken` — but the `refreshToken` itself
may be empty when an `accountId` is present. -/
theorem load_records_have_string_token_and_key (d : RawDoc)
    (st : AccountStorageV1) (logs : List LogEvent)
    (h : loadAccounts (ReadOutcome.parsed d) = Except.ok (some st, logs)) :
    (∃ rawAccounts, d.accountsField = some rawAccounts ∧
      st.accounts.Sublist (rawAccounts.filterMap coerceAccount)) ∧
    ∀ a ∈ st.accounts, (identityKey a).isSome := by
  cases hacc : d.accountsField with
  | none => simp [loadAccounts, loadBody, processData, hacc] at h
  | some rawAccounts =>
    by_cases hver : d.version = RawValue.numV (JsNumber.finite 1)
    · simp [loadAccounts, loadBody, processData, hacc, hver] at h
      obtain ⟨hst, hlogs⟩ := h
      subst hst
      refine ⟨⟨rawAccounts, rfl, ?_⟩, ?_⟩
      · show (keepScan 0 (rawAccounts.filterMap coerceAccount)
            ((keyToIndexMap (rawAccounts.filterMap coerceAccount)).map
              Prod.snd)).Sublist (rawAccounts.filterMap coerceAccount)
        exact keepScan_sublist _ 0 _
      · intro a ha
        obtain ⟨k2, hk2⟩ := dedup_mem_identityKey _ a ha
        simp [hk2]
    · simp [loadAccounts, loadBody, processData, hacc, hver] at h

/-- C3 amended witness: the amended claim applied to the concrete
document `c3Doc`. -/
theorem load_records_have_string_token_and_key_witness :
    loadAccounts (ReadOutcome.parsed c3Doc) =
      Except.ok (some ⟨[c3BadAccount], 0⟩, []) ∧
    ((∃ rawAccounts, c3Doc.accountsField = some rawAccounts ∧
      ([c3BadAccount] : List AccountMetadataV1).Sublist
        (rawAccounts.filterMap coerceAccount)) ∧
    ∀ a ∈ ([c3BadAccount] : List AccountMetadataV1), (identityKey a).isSome) :=
  ⟨by rfl, load_records_have_string_token_and_key c3Doc ⟨[c3BadAccount], 0⟩ []
    (by rfl)⟩

/-! ### `saveAccounts` and `clearAccounts` -/

/-- One character escaped as `JSON.stringify` escapes string contents. -/
def jsEscapeChar (c : Char) : String :=
  if c = '"' then "\\\""
  else if c = '\\' then "\\\\"
  else if c = '\x08' then "\\b"
  else if c = '\x09' then "\\t"
  else if c = '\x0a' then "\\n"
  else if c = '\x0c' then "\\f"
  else if c = '\x0d' then "\\r"
  else if c.toNat < 32 then
    let hex := Nat.toDigits 16 c.toNat
    "\\u" ++ String.mk (List.replicate (4 - hex.length) '0') ++ String.mk hex
  else String.singleton c

def jsEscape (s : String) : String :=
  String.join (s.data.map jsEscapeChar)

def jsonStr (s : String) : String :=
  "\"" ++ jsEscape s ++ "\""

def switchReasonText : SwitchReason → String
  | SwitchReason.rateLimit => "rate-limit"
  | SwitchReason.initial => "initial"
  | SwitchReason.rotation => "rotation"

def cooldownReasonText : CooldownReason → String
  | CooldownReason.authFailure => "auth-failure"
  | CooldownReason.networkError => "network-error"

def jsonField (k v : String) : String :=
  jsonStr k ++ ": " ++ v

/-- The serialized fields of one record, in interface order; absent
optional fields are omitted, as `JSON.stringify` omits `undefined`. -/
def accountFields (a : AccountMetadataV1) : List String :=
  (match a.accountId with
   | some s => [jsonField ("accountId") (jsonStr s)]
   | none => []) ++
  [jsonField ("refreshToken") (jsonStr a.refreshToken),
   jsonField ("addedAt") (toString a.addedAt),
   jsonField ("lastUsed") (toString a.lastUsed)] ++
  (match a.lastSwitchReason with
   | some r => [jsonField ("lastSwitchReason") (jsonStr (switchReasonText r))]
   | none => []) ++
  (match a.rateLimitResetTime with
   | some t => [jsonField ("rateLimitResetTime") (toString t)]
   | none => []) ++
  (match a.coolingDownUntil with
   | some t => [jsonField ("coolingDownUntil") (toString t)]
   | none => []) ++
  (match a.cooldownReason with
   | some r => [jsonField ("cooldownReason") (jsonStr (cooldownReasonText r))]
   | none => [])

def stringifyAccount (a : AccountMetadataV1) : String :=
  "\x7b\n" ++ String.intercalate (",\n")
    ((accountFields a).map (fun f => "      " ++ f)) ++ "\n    \x7d"

def stringifyAccounts : List AccountMetadataV1 → String
  | [] => "[]"
  | accounts =>
    "[\n" ++ String.intercalate (",\n")
      (accounts.map (fun a => "    " ++ stringifyAccount a)) ++ "\n  ]"

/-- `JSON.stringify(storage, null, 2)` for a version-1 document.  Key
order follows the interface declaration (for objects freshly built by the
manager; objects revived from disk keep their stored key order, which the
value alone does not determine). -/
def stringifyStorage (st : AccountStorageV1) : String :=
  "\x7b\n  " ++ jsonField ("version") ("1") ++ ",\n  " ++
    jsonField ("accounts") (stringifyAccounts st.accounts) ++ ",\n  " ++
    jsonField ("activeIndex") (toString st.activeIndex) ++ "\n\x7d"

/-- `join(homedir(), ".opencode")`, with `/` as separator. -/
def getConfigDir (home : String) : String :=
  home ++ "/" ++ ".opencode"

/-- Embedding of `getStoragePath`. -/
def getStoragePath (home : String) : String :=
  getConfigDir home ++ "/" ++ "openai-codex-accounts.json"

/-- `path.dirname`: everything before the last separator. -/
def dirname (p : String) : String :=
  let parts := p.splitOn ("/")
  if parts.length ≤ 1 then "." else String.intercalate ("/") (parts.dropLast)

/-- A filesystem call attempted by the storage module. -/
inductive FsOp where
  | mkdirRecursive (dir : String)
  | writeFile (path content : String)
  | unlink (path : String)
deriving DecidableEq, Repr

/-- Embedding of `saveAccounts`, parameterized by the home directory and
by the outcome of each `fs` call (`none` = success).  The first component
is the trace of attempted filesystem operations in order; the second the
returned promise — `await` rethrows, so a failing call aborts the
sequence and its error propagates unhandled (there is no try/catch). -/
def saveAccounts (storage : AccountStorageV1) (home : String)
    (mkdirErr writeErr : Option JsError) :
    List FsOp × Except JsError Unit :=
  let path := getStoragePath home
  match mkdirErr with
  | some e => ([FsOp.mkdirRecursive (dirname path)], Except.error e)
  | none =>
    let content := stringifyStorage storage
    match writeErr with
    | some e => ([FsOp.mkdirRecursive (dirname path),
                  FsOp.writeFile path content], Except.error e)
    | none => ([FsOp.mkdirRecursive (dirname path),
                FsOp.writeFile path content], Except.ok ())

/-- C8: `saveAccounts` first creates any missing parent directories, then
writes the full pretty-printed document directly to the destination path
(no existence check, no temporary file), and an I/O failure of either
call is propagated to the caller as an error. -/
theorem save_creates_dirs_then_writes_propagates
    (storage : AccountStorageV1) (home : String) (e e2 : JsError)
    (w : Option JsError) :
    saveAccounts storage home none none =
      ([FsOp.mkdirRecursive (dirname (getStoragePath home)),
        FsOp.writeFile (getStoragePath home) (stringifyStorage storage)],
       Except.ok ()) ∧
    saveAccounts storage home (some e) w =
      ([FsOp.mkdirRecursive (dirname (getStoragePath home))],
       Except.error e) ∧
    saveAccounts storage home none (some e2) =
      ([FsOp.mkdirRecursive (dirname (getStoragePath home)),
        FsOp.writeFile (getStoragePath home) (stringifyStorage storage)],
       Except.error e2) :=
  ⟨rfl, rfl, rfl⟩

/-- `fs.unlink` against a one-file store: succeeds and removes the file
when present, throws `ENOENT` when absent; `injected` models any other
I/O failure. -/
def unlinkCall (file : Option String) (injected : Option JsError) :
    Option String × Except JsError Unit :=
  match injected with
  | some e => (file, Except.error e)
  | none =>
    match file with
    | none => (none, Except.error enoentError)
    | some _ => (none, Except.ok ())

/-- Embedding of `clearAccounts`: `unlink` inside a catch that swallows
everything, logging only when the code is not `ENOENT`. -/
def clearAccounts (file : Option String) (injected : Option JsError) :
    Option String × Except JsError (List LogEvent) :=
  match unlinkCall file injected with
  | (file2, Except.ok _) => (file2, Except.ok [])
  | (file2, Except.error e) =>
    if e.code = some ("ENOENT") then (file2, Except.ok [])
    else (file2, Except.ok [LogEvent.errorClearFailed])

/-- C9: `clearAccounts` never raises: deleting an already-absent file is
treated as success (a second consecutive clear is a silent no-op), and
any other I/O error is logged but not propagated. -/
theorem clear_idempotent_never_raises :
    (∀ file injected, ∃ logs, (clearAccounts file injected).2 = Except.ok logs) ∧
    clearAccounts none none = (none, Except.ok []) ∧
    (∀ s, clearAccounts (some s) none = (none, Except.ok [])) ∧
    (∀ file, clearAccounts (clearAccounts file none).1 none =
      (none, Except.ok [])) ∧
    (∀ file e, clearAccounts file (some e) =
      (file, Except.ok (if e.code = some ("ENOENT") then []
                        else [LogEvent.errorClearFailed]))) := by
  refine ⟨?_, rfl, fun s => rfl, ?_, ?_⟩
  · intro file injected
    cases injected with
    | some e =>
      by_cases hc : e.code = some ("ENOENT") <;>
        simp [clearAccounts, unlinkCall, hc]
    | none =>
      cases file with
      | none => exact ⟨[], rfl⟩
      | some s => exact ⟨[], rfl⟩
  · intro file
    cases file with
    | none => rfl
    | some s => rfl
  · intro file e
    by_cases hc : e.code = some ("ENOENT") <;>
      simp [clearAccounts, unlinkCall, hc]

/-! ### The rotation manager (spec-modelled) -/

/-- Modelled from the spec: the repository's `AccountManager`
(`src/lib/accounts.ts`) is not among the provided sources — only its test
file is — so the manager is modelled from §4.2 of the specification.
In-memory state: the live account list and the active index. -/
structure ManagerState where
  accounts : List AccountMetadataV1
  activeIndex : Nat
deriving DecidableEq, Repr

/-- Modelled from the spec: the availability predicate — an account is
available iff its rate-limit window and its cooldown window (when set)
have both passed at `now`. -/
def isAccountAvailable (now : Int) (a : AccountMetadataV1) : Bool :=
  (match a.rateLimitResetTime with
   | none => true
   | some t => decide (t ≤ now)) &&
  (match a.coolingDownUntil with
   | none => true
   | some t => decide (t ≤ now))

/-- Modelled from the spec: scan the list starting just after
`activeIndex`, wrapping around, for the first available account. -/
def findAvailableFrom (accounts : List AccountMetadataV1)
    (activeIndex : Nat) (now : Int) : Option Nat :=
  ((List.range accounts.length).drop 1).findSome? (fun o =>
    let idx := (activeIndex + o) % accounts.length
    match accounts[idx]? with
    | some a => if isAccountAvailable now a then some idx else none
    | none => none)

/-- Modelled from the spec: `getCurrentAccount` — the record at
`activeIndex`, or none when the list is empty. -/
def getCurrentAccount (st : ManagerState) : Option AccountMetadataV1 :=
  st.accounts[st.activeIndex]?

/-- Modelled from the spec: `getCurrentOrNext` — return the current
account when it is available; otherwise rotate to the first available
account after it (wrapping), set its `lastUsed` to `now` and record the
switch reason (`rate-limit` when the prior account was rate-limited,
else `rotation`); when no account is available, fall back to returning
the unavailable current account unchanged. -/
def getCurrentOrNext (now : Int) (st : ManagerState) :
    ManagerState × Option AccountMetadataV1 :=
  match st.accounts[st.activeIndex]? with
  | none => (st, none)
  | some current =>
    if isAccountAvailable now current then (st, some current)
    else
      match findAvailableFrom st.accounts st.activeIndex now with
      | some idx =>
        match st.accounts[idx]? with
        | some next =>
          let reason :=
            if (match current.rateLimitResetTime with
                | some t => decide (now < t)
                | none => false)
            then SwitchReason.rateLimit else SwitchReason.rotation
          let updated := { next with
            lastUsed := now,
            lastSwitchReason := some reason }
          ({ accounts := st.accounts.set idx updated, activeIndex := idx },
           some updated)
        | none => (st, some current)
      | none => (st, some current)

/-- Modelled from the spec: the remaining wait of one account at `now`:
`max(rateLimitResetTime or 0, coolingDownUntil or 0) − now`, clamped. -/
def accountWait (now : Int) (a : AccountMetadataV1) : Int :=
  max (max (a.rateLimitResetTime.getD 0) (a.coolingDownUntil.getD 0) - now) 0

/-- Modelled from the spec: `getMinWaitTime` — `0` when the list is empty
or some account is available, else the smallest remaining wait. -/
def getMinWaitTime (now : Int) (st : ManagerState) : Int :=
  if st.accounts.isEmpty then 0
  else if st.accounts.any (fun a => isAccountAvailable now a) then 0
  else ((st.accounts.map (accountWait now)).min?).getD 0

/-- C5: with two accounts where the active account 0 is rate-limited
until `now + 60000` and account 1 has neither window set,
`getCurrentOrNext` rotates to account 1 — the scan starts just after
`activeIndex` — and `getMinWaitTime` is `0` because an account is
available. -/
theorem rotation_picks_next_available (now : Int)
    (a0 a1 : AccountMetadataV1)
    (h0r : a0.rateLimitResetTime = some (now + 60000))
    (h0c : a0.coolingDownUntil = none)
    (h1r : a1.rateLimitResetTime = none)
    (h1c : a1.coolingDownUntil = none) :
    (getCurrentOrNext now ⟨[a0, a1], 0⟩).2 =
      some { a1 with
        lastUsed := now,
        lastSwitchReason := some SwitchReason.rateLimit } ∧
    getMinWaitTime now ⟨[a0, a1], 0⟩ = 0 := by
  have hunavail : isAccountAvailable now a0 = false := by
    simp [isAccountAvailable, h0r, h0c]
  have havail : isAccountAvailable now a1 = true := by
    simp [isAccountAvailable, h1r, h1c]
  constructor
  · have hfind : findAvailableFrom [a0, a1] 0 now = some 1 := by
      unfold findAvailableFrom
      rw [show (List.range ([a0, a1] : List AccountMetadataV1).length).drop 1
            = [1] from rfl]
      simp [List.findSome?, havail]
    have hreason : (match a0.rateLimitResetTime with
        | some t => decide (now < t)
        | none => false) = true := by
      rw [h0r]
      simp
    simp [getCurrentOrNext, hunavail, hfind, hreason]
  · simp [getMinWaitTime, havail]

/-- Concrete rate-limited account used in the C5 witness. -/
def c5Acc0 : AccountMetadataV1 :=
  ⟨none, "token-1", 0, 0, none, some 60000, none, none⟩

/-- Concrete fully-available account used in the C5 witness. -/
def c5Acc1 : AccountMetadataV1 :=
  ⟨none, "token-2", 0, 0, none, none, none, none⟩

/-- C5 witness: the scenario at `now = 0` with literal records. -/
theorem rotation_picks_next_available_witness :
    c5Acc0.rateLimitResetTime = some ((0 : Int) + 60000) ∧
    c5Acc0.coolingDownUntil = none ∧
    c5Acc1.rateLimitResetTime = none ∧
    c5Acc1.coolingDownUntil = none ∧
    ((getCurrentOrNext 0 ⟨[c5Acc0, c5Acc1], 0⟩).2 =
      some { c5Acc1 with
        lastUsed := 0,
        lastSwitchReason := some SwitchReason.rateLimit } ∧
     getMinWaitTime 0 ⟨[c5Acc0, c5Acc1], 0⟩ = 0) :=
  ⟨by decide, rfl, rfl, rfl,
   rotation_picks_next_available 0 c5Acc0 c5Acc1 (by decide) rfl rfl rfl⟩

end MultiAuth
